import Mathlib

/-!
Verification of the detection post-processing engine
(`static/ppdet/utils/post_process.py`).

The numeric arrays of the source are embedded over `ℚ`: every arithmetic
operation the source performs on (finite) floats is mirrored exactly on
rationals, and the places where numpy produces a non-finite value (`0/0`
giving `NaN`) are modelled explicitly, never through the library's
`x / 0 = 0` convention.  The Gaussian decay `exp(-(ovr*ovr)/sigma)` of
`soft_nms` is a transcendental external call; it is embedded as an
explicit function parameter `w : ℚ → ℚ` (modelling
`fun ovr => exp (-(ovr*ovr)/sigma)`), with its analytic facts
(`w 0 = 1`, `0 < w x`, `w x ≤ 1` for `sigma > 0`) supplied as hypotheses
where a theorem needs them.  `while` loops are embedded with explicit
fuel returning `Option`: `none` models a run that did not finish within
the fuel (the source loop can in fact diverge), `some` a completed run.
Raised Python exceptions are modelled by `Option`/`Except` error values.
-/

namespace PostProcess

/-- A bounding box `(x1, y1, x2, y2)` in pixel coordinates. -/
structure Box where
  x1 : ℚ
  y1 : ℚ
  x2 : ℚ
  y2 : ℚ
deriving DecidableEq

instance : Inhabited Box := ⟨⟨0, 0, 0, 0⟩⟩

/-- A detection row `[score, x1, y1, x2, y2]` as used by `nms`, `soft_nms`
and `box_voting` (`dets_j` in `get_nms_result`). -/
structure Det where
  score : ℚ
  x1 : ℚ
  y1 : ℚ
  x2 : ℚ
  y2 : ℚ
deriving DecidableEq

instance : Inhabited Det := ⟨⟨0, 0, 0, 0, 0⟩⟩

/-- The box part of a detection row (`dets[:, 1:]`). -/
def Det.box (d : Det) : Box := ⟨d.x1, d.y1, d.x2, d.y2⟩

/-- `areas = (x2 - x1 + 1) * (y2 - y1 + 1)` as computed inside `nms` and
`soft_nms` (pixel-inclusive convention, may be zero or negative for
degenerate boxes). -/
def detArea (d : Det) : ℚ := (d.x2 - d.x1 + 1) * (d.y2 - d.y1 + 1)

/-- `bbox_area(box)`: `w = box[2] - box[0] + 1; h = box[3] - box[1] + 1;
return w * h`. -/
def bbox_area (b : Box) : ℚ := (b.x2 - b.x1 + 1) * (b.y2 - b.y1 + 1)

/-- Intersection width `iw = min(x[n,2], y[k,2]) - max(x[n,0], y[k,0]) + 1`
from `bbox_overlaps`. -/
def interW (a b : Box) : ℚ := min a.x2 b.x2 - max a.x1 b.x1 + 1

/-- Intersection height `ih = min(x[n,3], y[k,3]) - max(x[n,1], y[k,1]) + 1`
from `bbox_overlaps`. -/
def interH (a b : Box) : ℚ := min a.y2 b.y2 - max a.y1 b.y1 + 1

/-- The union-area denominator `ua = x_area + y_area - iw * ih` of
`bbox_overlaps`. -/
def unionArea (a b : Box) : ℚ := bbox_area a + bbox_area b - interW a b * interH a b

/-- One entry `overlaps[n, k]` of `bbox_overlaps(x, y)`: the source fills
the entry only when `iw > 0` and `ih > 0` (leaving the zero
initialisation otherwise), and divides by `ua` inside that guard. -/
def overlapEntry (a b : Box) : ℚ :=
  if 0 < interW a b then
    if 0 < interH a b then interW a b * interH a b / unionArea a b
    else 0
  else 0

/-- `bbox_overlaps(x, y)`: the `N × K` matrix with `overlaps[n, k]`
computed pairwise (row `n` ranges over `x`, column `k` over `y`). -/
def bbox_overlaps (x y : List Box) : List (List ℚ) :=
  x.map fun xb => y.map fun yb => overlapEntry xb yb

/-- The clipped intersection area `inter = w * h` computed in the inner
loop of `nms` (and vectorised in `soft_nms`):
`w = max(0, xx2 - xx1 + 1)`, `h = max(0, yy2 - yy1 + 1)`. -/
def pairInter (a b : Box) : ℚ :=
  max 0 (interW a b) * max 0 (interH a b)

/-- The denominator `iarea + areas[j] - inter` of the overlap ratio in the
inner loop of `nms` (and of the `ovr` vector of `soft_nms`). -/
def nmsDenom (a b : Box) : ℚ := bbox_area a + bbox_area b - pairInter a b

/-- The test `ovr >= thresh` of the `nms` inner loop, with
`ovr = inter / (iarea + areas[j] - inter)`.  numpy float semantics: the
denominator can only vanish when `inter = 0` as well (`inter > 0` forces
the denominator `>= inter`), and `0.0 / 0.0` is `NaN`, for which
`NaN >= thresh` is `False`; so a zero denominator never suppresses. -/
def nmsOvrGE (a b : Box) (thresh : ℚ) : Bool :=
  if nmsDenom a b = 0 then false
  else decide (thresh ≤ pairInter a b / nmsDenom a b)

/-- Index lookup `dets[i]` (all call sites keep `i` in bounds). -/
def detOf (dets : List Det) (i : Nat) : Det := dets.getD i default

/-- `scores.argsort()[::-1]` of `nms`, as a list of indices into `dets`
sorted by descending score.  numpy's default `argsort` is an unstable
quicksort, so the order among exactly tied scores is unspecified; the
embedding uses a stable descending sort, and no theorem below depends on
the order chosen among ties. -/
def argsortDesc (scores : List ℚ) : List Nat :=
  List.insertionSort (fun i j => scores.getD j 0 ≤ scores.getD i 0)
    (List.range scores.length)

/-- The inner `for _j in range(_i + 1, ndets)` loop of `nms`: walking the
tail `rest` of the sorted order, marking every not-yet-suppressed box `j`
whose overlap check against box `i` passes as suppressed.  The check
(`ovr >= thresh` with numpy semantics) is a parameter so that the
spec-worded variant below can reuse the loop verbatim. -/
def nmsInner (dets : List Det) (check : Box → Box → Bool) (i : Nat) :
    List Nat → List Bool → List Bool
  | [], supp => supp
  | j :: rest, supp =>
    if supp.getD j false then nmsInner dets check i rest supp
    else if check (detOf dets i).box (detOf dets j).box then
      nmsInner dets check i rest (supp.set j true)
    else nmsInner dets check i rest supp

/-- The outer `for _i in range(ndets)` loop of `nms` over the sorted
order, skipping already-suppressed boxes. -/
def nmsLoop (dets : List Det) (check : Box → Box → Bool) :
    List Nat → List Bool → List Bool
  | [], supp => supp
  | i :: rest, supp =>
    if supp.getD i false then nmsLoop dets check rest supp
    else nmsLoop dets check rest (nmsInner dets check i rest supp)

/-- The survivor extraction closing `nms`:
`keep = np.where(suppressed == 0)[0]` lists the surviving indices in
ascending (original) order and `dets[keep, :]` selects those rows, i.e.
the survivors in input order; embedded as filtering the enumerated input
by the final suppression flags. -/
def nmsRun (dets : List Det) (check : Box → Box → Bool) : List Det :=
  let order := argsortDesc (dets.map Det.score)
  let supp := nmsLoop dets check order (List.replicate dets.length false)
  (dets.enum.filter fun p => !(supp.getD p.1 false)).map Prod.snd

/-- `nms(dets, thresh)`: greedy NMS with the source's overlap test. -/
def nms (dets : List Det) (thresh : ℚ) : List Det :=
  nmsRun dets fun a b => nmsOvrGE a b thresh

/-- Modelled from the spec (§4.1, §7): "implementations must guard against
a zero denominator and define IoU=0 in that case" — the overlap ratio
with that guard, for comparison against the source's `nms`. -/
def iouSpecGuard (a b : Box) : ℚ :=
  if nmsDenom a b = 0 then 0 else pairInter a b / nmsDenom a b

/-- Greedy NMS as the spec words it: suppression whenever the guarded
IoU is `>= thresh`. -/
def nms_specGuard (dets : List Det) (thresh : ℚ) : List Det :=
  nmsRun dets fun a b => decide (thresh ≤ iouSpecGuard a b)

/-- `np.argmax(dets[:, 0])`: the first index attaining the maximum.
Embedded front-to-back: the head wins unless some strictly larger value
occurs in the tail. -/
def maxScore : List ℚ → ℚ
  | [] => 0
  | [x] => x
  | x :: y :: rest => max x (maxScore (y :: rest))

/-- First index of the maximum, matching `np.argmax` tie behaviour. -/
def argmaxIdx : List ℚ → Nat
  | [] => 0
  | [_] => 0
  | x :: y :: rest =>
    if x < maxScore (y :: rest) then argmaxIdx (y :: rest) + 1 else 0

/-- The overlap ratio `ovr` of one `soft_nms` iteration between the popped
box `t` and a remaining row `d`: `inter / (areas + areas[maxpos] - inter)`
with numpy semantics.  A zero denominator (possible only with `inter = 0`)
gives `NaN`; `none` models that, and the caller drops the row because a
`NaN` score fails every `>=` comparison. -/
def ovrNp (t d : Det) : Option ℚ :=
  if nmsDenom d.box t.box = 0 then none
  else some (pairInter d.box t.box / nmsDenom d.box t.box)

/-- The fate of one row `d` in a `soft_nms` iteration against the popped
box `t`: its score is rescaled by `weight = exp(-(ovr*ovr)/sigma)` (here
`w ovr`) and the row survives the `scores >= thres` filter or is dropped.
A `NaN` overlap (zero denominator, `none`) propagates through `exp` and
the comparison, dropping the row. -/
def softRow (w : ℚ → ℚ) (thres : ℚ) (t d : Det) : Option Det :=
  (ovrNp t d).bind fun o =>
    if thres ≤ d.score * w o then some ⟨d.score * w o, d.x1, d.y1, d.x2, d.y2⟩
    else none

/-- One iteration body of the `soft_nms` while-loop, after `maxpos` has
been picked and appended: `scores[maxpos] = -1` (in place), every row's
score is rescaled, and `dets = dets[idx_keep]` keeps the surviving rows
in order. -/
def softIter (w : ℚ → ℚ) (thres : ℚ) (dets : List Det) (maxpos : Nat) :
    List Det :=
  let t := detOf dets maxpos
  let dets1 := dets.set maxpos ⟨-1, t.x1, t.y1, t.x2, t.y2⟩
  dets1.filterMap (softRow w thres t)

/-- The `while len(dets) > 0` loop of `soft_nms`, with explicit fuel:
`none` models a run that has not emptied `dets` within `fuel` iterations
(the source loop can genuinely diverge, e.g. on negative thresholds). -/
def soft_nms_go (w : ℚ → ℚ) (thres : ℚ) : Nat → List Det → Option (List Det)
  | _, [] => some []
  | 0, _ :: _ => none
  | fuel + 1, d :: ds =>
    let dets := d :: ds
    let mp := argmaxIdx (dets.map Det.score)
    let picked := detOf dets mp
    (soft_nms_go w thres fuel (softIter w thres dets mp)).map
      fun rest => picked :: rest

/-- `soft_nms(dets, sigma, thres)` with the Gaussian decay
`fun ovr => exp(-(ovr*ovr)/sigma)` abstracted as `w`. -/
def soft_nms (w : ℚ → ℚ) (thres : ℚ) (fuel : Nat) (dets : List Det) :
    Option (List Det) :=
  soft_nms_go w thres fuel dets

/-- `np.average(boxes_to_vote, axis=0, weights=ws)` on an `m × 4` block of
box rows: column-wise weighted mean.  numpy raises `ZeroDivisionError`
("weights sum to zero") whenever `ws` sums to `0` — in particular for an
empty cluster — which `none` models. -/
def npAverage (boxes : List Box) (ws : List ℚ) : Option Box :=
  if ws.sum = 0 then none
  else
    some ⟨((ws.zip boxes).map fun p => p.1 * p.2.x1).sum / ws.sum,
          ((ws.zip boxes).map fun p => p.1 * p.2.y1).sum / ws.sum,
          ((ws.zip boxes).map fun p => p.1 * p.2.x2).sum / ws.sum,
          ((ws.zip boxes).map fun p => p.1 * p.2.y2).sum / ws.sum⟩

/-- `box_voting(nms_dets, dets, vote_thresh)`: for each survivor `k`,
collect every original candidate with `bbox_overlaps` entry
`>= vote_thresh`, and replace the survivor's coordinates (score kept) by
the score-weighted average of the cluster.  A raised `ZeroDivisionError`
from `np.average` aborts the whole call (`none`). -/
def box_voting (nms_dets dets : List Det) (vote_thresh : ℚ) :
    Option (List Det) :=
  nms_dets.mapM fun d =>
    let cluster := dets.filter fun c => vote_thresh ≤ overlapEntry d.box c.box
    (npAverage (cluster.map Det.box) (cluster.map Det.score)).map
      fun b => ⟨d.score, b.x1, b.y1, b.x2, b.y2⟩

/-- A labelled detection row `[label, score, x1, y1, x2, y2]` as stored in
`cls_boxes[j]` after `np.hstack((label[:, np.newaxis], nms_dets))`. -/
structure LDet where
  label : ℚ
  score : ℚ
  x1 : ℚ
  y1 : ℚ
  x2 : ℚ
  y2 : ℚ
deriving DecidableEq

/-- `image_scores = np.hstack([cls_boxes[j][:, 1] for j in ...])`: the
pooled score column across all (non-background) classes. -/
def pooledScores (clsBoxes : List (List LDet)) : List ℚ :=
  (clsBoxes.map fun cb => cb.map LDet.score).flatten

/-- `image_thresh = np.sort(image_scores)[-detections_per_im]`: numpy sorts
ascending and Python's negative index `-K` reads position `n - K` for
`1 ≤ K ≤ n` (and position `0` for `K = 0`, since `-0 == 0`); on the
branch where this is evaluated `K < n`, so the index is `(n - K) % n`. -/
def kthHighest (pool : List ℚ) (K : Nat) : ℚ :=
  let s := List.insertionSort (· ≤ ·) pool
  s.getD ((s.length - K) % s.length) 0

/-- The global-cap block closing `get_nms_result` (the
"Limit to max_per_image detections over all classes" block): when the
pooled score count exceeds `detections_per_im`, keep per class only the
rows with `cls_boxes[j][:, 1] >= image_thresh`. -/
def limit_dets (clsBoxes : List (List LDet)) (detections_per_im : Nat) :
    List (List LDet) :=
  let image_scores := pooledScores clsBoxes
  if detections_per_im < image_scores.length then
    let image_thresh := kthHighest image_scores detections_per_im
    clsBoxes.map fun cb => cb.filter fun d => image_thresh ≤ d.score
  else clsBoxes

/-- Total number of detections ultimately stacked by
`np.vstack([cls_boxes[j] ...])`. -/
def totalCount (clsBoxes : List (List LDet)) : Nat :=
  (clsBoxes.map List.length).sum

/-- `box_flip(boxes, im_shape)`: the source works on a
`(-1, 4 * num_classes)` array and mirrors the strided columns
`boxes[:, 0::4]` / `boxes[:, 2::4]` about `im_width = im_shape[0][1]`;
each row is embedded as the list of its per-class boxes, on which the
strided assignment acts quad-wise:
`new_x1 = im_width - old_x2 - 1`, `new_x2 = im_width - old_x1 - 1`. -/
def box_flip (boxes : List (List Box)) (im_shape : List (List ℚ)) :
    List (List Box) :=
  let im_width := (im_shape.getD 0 []).getD 1 0
  boxes.map fun row => row.map fun b =>
    ⟨im_width - b.x2 - 1, b.y1, im_width - b.x1 - 1, b.y2⟩

/-- The configuration dictionary consumed by `get_nms_result`, with the
Gaussian decay of `soft_nms` abstracted as `decay` (and a fuel bound for
its while-loop). -/
structure NmsConfig where
  score_thresh : ℚ
  nms_thresh : ℚ
  use_soft_nms : Bool
  decay : ℚ → ℚ
  soft_fuel : Nat
  enable_voting : Bool
  vote_thresh : ℚ
  detections_per_im : Nat

/-- The per-class candidate extraction of `get_nms_result` (dense-score
path): `inds = np.where(scores[:, j] > config['score_thresh'])[0]`,
`scores_j = scores[inds, j]`, `boxes_j = boxes[inds, j*4:(j+1)*4]`,
`dets_j = np.hstack(...)`. -/
def classDets (boxes scores : List (List ℚ)) (score_thresh : ℚ) (j : Nat) :
    List Det :=
  (boxes.zip scores).filterMap fun p =>
    let s := p.2.getD j 0
    if score_thresh < s then
      some ⟨s, p.1.getD (4 * j) 0, p.1.getD (4 * j + 1) 0,
            p.1.getD (4 * j + 2) 0, p.1.getD (4 * j + 3) 0⟩
    else none

/-- The per-class body of `get_nms_result`: NMS or Soft-NMS, optional
voting, then the class label is prepended to every surviving row. -/
def classPipeline (cfg : NmsConfig) (boxes scores : List (List ℚ))
    (j : Nat) : Option (List LDet) := do
  let dets_j := classDets boxes scores cfg.score_thresh j
  let nms_dets ←
    if cfg.use_soft_nms then
      soft_nms cfg.decay cfg.nms_thresh cfg.soft_fuel dets_j
    else some (nms dets_j cfg.nms_thresh)
  let voted ←
    if cfg.enable_voting then box_voting nms_dets dets_j cfg.vote_thresh
    else some nms_dets
  some (voted.map fun d => ⟨(j : ℚ), d.score, d.x1, d.y1, d.x2, d.y2⟩)

/-- `get_nms_result(boxes, scores, config, num_classes, background_label)`
on the dense-score path (`labels=None`; the explicit-labels path of
`corner_post_process` is not exercised by any claim and is elided).
`start_idx = 1 if background_label == 0 else 0`; classes
`start_idx .. num_classes - 1` are processed, the global cap applied, and
the per-class lists stacked.  `np.hstack([])` over an empty class range
raises, which `none` models; `none` likewise propagates a
`ZeroDivisionError` from voting or an unfinished Soft-NMS loop. -/
def get_nms_result (boxes scores : List (List ℚ)) (cfg : NmsConfig)
    (num_classes : Nat) (background_label : Int) : Option (List LDet) := do
  let start_idx : Nat := if background_label = 0 then 1 else 0
  let js := (List.range num_classes).drop start_idx
  if js.isEmpty then none
  else do
    let clsBoxes ← js.mapM (classPipeline cfg boxes scores)
    some (limit_dets clsBoxes cfg.detections_per_im).flatten

/-- A numpy array of arbitrary rank: its shape tuple and its
row-major-flattened data. -/
structure NpArr where
  shape : List Nat
  data : List ℚ
deriving DecidableEq

/-- `masks[:, :, :, ::-1]`: reverse the last axis (row-major chunks of the
last dimension's width are each reversed; the shape is unchanged). -/
def reverseLastAxis (a : NpArr) : NpArr :=
  let wlast := a.shape.getLastD 1
  if wlast = 0 then a
  else ⟨a.shape, ((a.data.toChunks wlast).map List.reverse).flatten⟩

/-- Element-wise mean of the flattened payloads (the data part of
`np.mean(mask_list, axis=0)` once all shapes agree). -/
def pointwiseMean (ls : List (List ℚ)) : List ℚ :=
  match ls with
  | [] => []
  | d :: rest =>
    (rest.foldl (fun acc x => acc.zipWith (· + ·) x) d).map
      fun v => v / (((d :: rest).length : ℚ))

/-- `np.mean(mask_list, axis=0)` over a Python list of arrays: the
element-wise mean is defined only when all arrays share one shape;
a ragged list makes numpy fail to stack (`none`). -/
def npMeanStack (l : List NpArr) : Option NpArr :=
  match l with
  | [] => none
  | a :: rest =>
    if rest.all fun b => b.shape == a.shape then
      some ⟨a.shape, pointwiseMean (a.data :: rest.map NpArr.data)⟩
    else none

/-- `mstest_mask_post_process(result, cfg)`: the ordered `'mask'` entries
of `result` are embedded as `(is_flipped_view, tensor)` pairs and
`M = cfg.FPNRoIAlign['mask_resolution']`.  A tensor that is not
4-dimensional is replaced by `np.zeros((0, M, M))` (and `continue` skips
the flip), a flipped view has its last axis mirrored, and the list is
averaged element-wise. -/
def mstest_mask_post_process (M : Nat) (maskInputs : List (Bool × NpArr)) :
    Option NpArr :=
  let mask_list := maskInputs.map fun p =>
    if p.2.shape.length ≠ 4 then NpArr.mk [0, M, M] []
    else if p.1 then reverseLastAxis p.2 else p.2
  npMeanStack mask_list

/-- The fields of `results` read by `mask_encode`: `results['bbox'][0]`
(possibly `None`), `results['mask'][0]` as an `(n, C, M, M)` tensor,
`results['mask'][1][0]`, and `results['im_shape'][0]`. -/
structure MaskResults where
  bbox0 : Option (List (List ℚ))
  mask0 : List (List (List (List ℚ)))
  lengths : List Nat
  im_shape0 : List (List ℚ)

/-- The `.shape` of a 2-d array embedded as a row list. -/
def shape2 (m : List (List ℚ)) : List Nat := [m.length, (m.headD []).length]

/-- Modelled from the spec: `expand_boxes` is imported from
`ppdet.utils.coco_eval`, which is not under `src/`.  Spec §4.7: "expand
the detection's box by a configured scale factor (to give the mask decode
margin beyond the tight box)" — the box is scaled about its centre by
`scale`. -/
def expand_boxes (boxes : List Box) (scale : ℚ) : List Box :=
  boxes.map fun b =>
    let w_half := (b.x2 - b.x1) / 2 * scale
    let h_half := (b.y2 - b.y1) / 2 * scale
    let x_c := (b.x2 + b.x1) / 2
    let y_c := (b.y2 + b.y1) / 2
    ⟨x_c - w_half, y_c - h_half, x_c + w_half, y_c + h_half⟩

/-- `astype(np.int32)` / `int(...)`: float-to-int truncation toward 0. -/
def truncQ (q : ℚ) : Int := q.num / (q.den : Int)

/-- `padded_mask`: the `(resolution+2) × (resolution+2)` canvas whose
interior `[1:-1, 1:-1]` holds `mask[j, clsid]` and whose border is 0. -/
def paddedMask (resolution : Nat) (m : List (List ℚ)) : List (List ℚ) :=
  (List.range (resolution + 2)).map fun r =>
    (List.range (resolution + 2)).map fun c =>
      if 1 ≤ r ∧ r ≤ resolution ∧ 1 ≤ c ∧ c ≤ resolution then
        (m.getD (r - 1) []).getD (c - 1) 0
      else 0

/-- The per-detection body of `mask_encode`: resize the padded map to the
expanded box (minimum `1 × 1`), binarise at `thresh_binarize`, and write
the part that intersects the image into a full-image boolean canvas.
`resize` abstracts the external bilinear `cv2.resize(padded, (w, h))`. -/
def imMask (resize : List (List ℚ) → Nat → Nat → List (List ℚ))
    (resolution : Nat) (thresh_binarize : ℚ) (im_h im_w : Nat)
    (xmin ymin xmax ymax : Int) (classMask : List (List ℚ)) :
    List (List Bool) :=
  let w := max (xmax - xmin + 1) 1
  let h := max (ymax - ymin + 1) 1
  let resized := resize (paddedMask resolution classMask) w.toNat h.toNat
  let binarized := resized.map (List.map fun v => decide (thresh_binarize < v))
  let x0 := min (max xmin 0) (im_w : Int)
  let x1 := min (max (xmax + 1) 0) (im_w : Int)
  let y0 := min (max ymin 0) (im_h : Int)
  let y1 := min (max (ymax + 1) 0) (im_h : Int)
  (List.range im_h).map fun r =>
    (List.range im_w).map fun c =>
      if y0 ≤ (r : Int) ∧ (r : Int) < y1 ∧ x0 ≤ (c : Int) ∧ (c : Int) < x1 then
        (binarized.getD ((r : Int) - ymin).toNat []).getD
          ((c : Int) - xmin).toNat false
      else false

/-- One iteration of the `for i in range(len(lengths))` loop of
`mask_encode`: the sample's `num` rows starting at offset `s` are sliced
out of `bboxes` / `masks`, the boxes (columns 2:6) expanded and truncated
to `int32`, and one full-image mask produced per detection. -/
def sampleSegms (resize : List (List ℚ) → Nat → Nat → List (List ℚ))
    (resolution : Nat) (thresh_binarize scale : ℚ)
    (bboxes : List (List ℚ)) (masks : List (List (List (List ℚ))))
    (im_shape : List ℚ) (s num : Nat) : List (List (List Bool)) :=
  let rows := (bboxes.drop s).take num
  let bbox := rows.map fun r =>
    Box.mk (r.getD 2 0) (r.getD 3 0) (r.getD 4 0) (r.getD 5 0)
  let clsids := rows.map fun r => truncQ (r.getD 0 0)
  let mask := (masks.drop s).take num
  let im_h := (truncQ (im_shape.getD 0 0)).toNat
  let im_w := (truncQ (im_shape.getD 1 0)).toNat
  let expanded := (expand_boxes bbox scale).map fun b =>
    (truncQ b.x1, truncQ b.y1, truncQ b.x2, truncQ b.y2)
  (List.range num).map fun j =>
    let e := expanded.getD j (0, 0, 0, 0)
    let clsid := (clsids.getD j 0).toNat
    imMask resize resolution thresh_binarize im_h im_w
      e.1 e.2.1 e.2.2.1 e.2.2.2 ((mask.getD j []).getD clsid [])

/-- `mask_encode(results, resolution, thresh_binarize=0.5)`.  The final
`pycocotools` run-length encoding is an external encoder fed with the
full-image boolean canvas, so a segm is embedded as that canvas.  Python
evaluates `bboxes.shape` before the `bboxes is None` disjunct, so a
`None` batch raises `AttributeError` (`Except.error`) before the guard
can return; `pyShape2` makes that evaluation order explicit. -/
def pyShape2 (o : Option (List (List ℚ))) : Except String (List Nat) :=
  match o with
  | none => Except.error "AttributeError"
  | some a => Except.ok (shape2 a)

/-- See `pyShape2`; `resize` abstracts `cv2.resize`.  A raised
`AttributeError` from the `.shape` access propagates out of the call. -/
def mask_encode (resize : List (List ℚ) → Nat → Nat → List (List ℚ))
    (results : MaskResults) (resolution : Nat) (thresh_binarize : ℚ) :
    Except String (List (List (List Bool))) :=
  let scale := ((resolution : ℚ) + 2) / (resolution : ℚ)
  match pyShape2 results.bbox0 with
  | Except.error e => Except.error e
  | Except.ok bshape =>
    let bboxes := results.bbox0.getD []
    if bshape = [1, 1] ∨ results.bbox0 = none then Except.ok []
    else if bboxes.length = 0 then Except.ok []
    else
      Except.ok
        ((results.lengths.enum.foldl
          (fun acc p =>
            (acc.1 + p.2,
             acc.2 ++ sampleSegms resize resolution thresh_binarize scale
               bboxes results.mask0 (results.im_shape0.getD p.1 []) acc.1 p.2))
          ((0 : Nat), ([] : List (List (List Bool))))).2)

/-! ### Concrete instances used by counterexamples and witnesses -/

/-- A concrete admissible decay function standing in for the Gaussian
`fun ovr => exp(-(ovr*ovr)/sigma)` in closed statements: like the
Gaussian (for any `sigma > 0`) it maps 0 to 1, takes values in `(0, 1]`,
and decreases in `|ovr|`; the refuted behaviours depend only on those
properties, not on the exact shape of `exp`. -/
def cDecay (x : ℚ) : ℚ := 1 / (1 + x * x)

/-- Two overlapping detections (IoU = 50/71) that both survive Soft-NMS. -/
def exC5 : List Det := [⟨9 / 10, 0, 0, 10, 10⟩, ⟨4 / 5, 1, 1, 11, 11⟩]

/-- The Soft-NMS output on `exC5` with `cDecay` and `thres = 1/10`: the
second score is decayed by `cDecay (50/71) = 5041/7541`. -/
def exC5out : List Det :=
  [⟨9 / 10, 0, 0, 10, 10⟩, ⟨20164 / 37705, 1, 1, 11, 11⟩]


/-- The zero-area degenerate box of the C3 counterexample. -/
def degB : Box := ⟨0, 0, -1, 0⟩

/-- Two coincident degenerate detections: both areas and the clipped
intersection are 0, so the `nms` overlap denominator is 0. -/
def exC3 : List Det := [⟨1, 0, 0, -1, 0⟩, ⟨1, 0, 0, -1, 0⟩]

/-- Two non-overlapping detections listed in ascending score order. -/
def exC2 : List Det := [⟨1, 0, 0, 10, 10⟩, ⟨2, 100, 100, 110, 110⟩]

/-- The single positive-area survivor of the C6 counterexample. -/
def exC6 : List Det := [⟨1, 0, 0, 10, 10⟩]

/-- Two non-intersecting survivors in descending score order. -/
def exW5 : List Det := [⟨1, 0, 0, 10, 10⟩, ⟨1 / 2, 100, 100, 110, 110⟩]

/-- Three single-survivor classes with pooled scores `[3, 2, 1]`. -/
def exC1 : List (List LDet) :=
  [[⟨1, 3, 0, 0, 1, 1⟩], [⟨2, 2, 0, 0, 1, 1⟩], [⟨3, 1, 0, 0, 1, 1⟩]]

/-- One valid 4-d mask tensor next to an invalid 3-d one. -/
def exC8 : List (Bool × NpArr) :=
  [(false, ⟨[1, 1, 2, 2], [1, 2, 3, 4]⟩), (false, ⟨[1, 2, 2], [9, 9, 9, 9]⟩)]

/-- Two valid 4-d mask tensors of one shape (second from a flipped view). -/
def exW8 : List (Bool × NpArr) :=
  [(false, ⟨[1, 1, 2, 2], [1, 2, 3, 4]⟩), (true, ⟨[1, 1, 2, 2], [4, 3, 2, 1]⟩)]

/-- A results record whose detection batch is the `(1, 1)` marker. -/
def exC9 : MaskResults := ⟨some [[5]], [], [], []⟩

/-- A results record whose detection batch is `None`. -/
def exC10 : MaskResults := ⟨none, [], [], []⟩

/-! ### Helper lemmas -/

lemma interW_le_left (a b : Box) : interW a b ≤ a.x2 - a.x1 + 1 := by
  have h1 : min a.x2 b.x2 ≤ a.x2 := min_le_left _ _
  have h2 : a.x1 ≤ max a.x1 b.x1 := le_max_left _ _
  unfold interW
  linarith

lemma interW_le_right (a b : Box) : interW a b ≤ b.x2 - b.x1 + 1 := by
  have h1 : min a.x2 b.x2 ≤ b.x2 := min_le_right _ _
  have h2 : b.x1 ≤ max a.x1 b.x1 := le_max_right _ _
  unfold interW
  linarith

lemma interH_le_left (a b : Box) : interH a b ≤ a.y2 - a.y1 + 1 := by
  have h1 : min a.y2 b.y2 ≤ a.y2 := min_le_left _ _
  have h2 : a.y1 ≤ max a.y1 b.y1 := le_max_left _ _
  unfold interH
  linarith

lemma interH_le_right (a b : Box) : interH a b ≤ b.y2 - b.y1 + 1 := by
  have h1 : min a.y2 b.y2 ≤ b.y2 := min_le_right _ _
  have h2 : b.y1 ≤ max a.y1 b.y1 := le_max_right _ _
  unfold interH
  linarith

/-- A positive intersection is at most the first box's area. -/
lemma inter_le_area_left (a b : Box) (hw : 0 < interW a b)
    (hh : 0 < interH a b) : interW a b * interH a b ≤ bbox_area a := by
  have h1 := interW_le_left a b
  have h2 := interH_le_left a b
  have h0 : (0 : ℚ) ≤ a.x2 - a.x1 + 1 := le_trans hw.le h1
  unfold bbox_area
  exact mul_le_mul h1 h2 hh.le h0

/-- A positive intersection is at most the second box's area. -/
lemma inter_le_area_right (a b : Box) (hw : 0 < interW a b)
    (hh : 0 < interH a b) : interW a b * interH a b ≤ bbox_area b := by
  have h1 := interW_le_right a b
  have h2 := interH_le_right a b
  have h0 : (0 : ℚ) ≤ b.x2 - b.x1 + 1 := le_trans hw.le h1
  unfold bbox_area
  exact mul_le_mul h1 h2 hh.le h0

/-- When `bbox_overlaps` reaches its division (`iw > 0` and `ih > 0`), the
denominator `ua` is strictly positive. -/
lemma unionArea_pos (a b : Box) (hw : 0 < interW a b)
    (hh : 0 < interH a b) : 0 < unionArea a b := by
  have hA := inter_le_area_left a b hw hh
  have hB := inter_le_area_right a b hw hh
  have hI : 0 < interW a b * interH a b := mul_pos hw hh
  unfold unionArea
  linarith

/-- Every `bbox_overlaps` entry is at most 1. -/
lemma overlapEntry_le_one (a b : Box) : overlapEntry a b ≤ 1 := by
  unfold overlapEntry
  split_ifs with h1 h2
  · rw [div_le_one (unionArea_pos a b h1 h2)]
    have hA := inter_le_area_left a b h1 h2
    have hB := inter_le_area_right a b h1 h2
    unfold unionArea
    linarith
  · norm_num
  · norm_num

lemma pairInter_comm (a b : Box) : pairInter a b = pairInter b a := by
  unfold pairInter interW interH
  rw [min_comm a.x2 b.x2, max_comm a.x1 b.x1, min_comm a.y2 b.y2,
    max_comm a.y1 b.y1]

/-- `List.filterMap` fixes a list every element of which it maps to
itself. -/
lemma filterMap_fix {α : Type} (f : α → Option α) :
    ∀ l : List α, (∀ a ∈ l, f a = some a) → l.filterMap f = l := by
  intro l
  induction l with
  | nil => intro _; rfl
  | cons a t ih =>
    intro h
    rw [List.filterMap_cons, h a (List.mem_cons_self a t),
      ih fun x hx => h x (List.mem_cons_of_mem a hx)]

/-- `List.mapM` over `Option` fixes a list every element of which it maps
to itself. -/
lemma mapM_fix {α : Type} (f : α → Option α) :
    ∀ l : List α, (∀ a ∈ l, f a = some a) → l.mapM f = some l := by
  intro l
  induction l with
  | nil => intro _; rfl
  | cons a t ih =>
    intro h
    rw [List.mapM_cons, h a (List.mem_cons_self a t),
      ih fun x hx => h x (List.mem_cons_of_mem a hx)]
    rfl

/-! ### Soft-NMS lemmas -/

lemma le_maxScore : ∀ (l : List ℚ), ∀ x ∈ l, x ≤ maxScore l := by
  intro l
  induction l with
  | nil => intro x hx; exact absurd hx (List.not_mem_nil x)
  | cons a t ih =>
    intro x hx
    cases t with
    | nil =>
      rcases List.mem_singleton.mp hx with rfl
      exact le_refl _
    | cons b rest =>
      rcases List.mem_cons.mp hx with rfl | hxt
      · exact le_max_left _ _
      · exact (ih x hxt).trans (le_max_right _ _)

lemma maxScore_mem : ∀ (l : List ℚ), l ≠ [] → maxScore l ∈ l := by
  intro l
  induction l with
  | nil => intro h; exact absurd rfl h
  | cons a t ih =>
    intro _
    cases t with
    | nil => exact List.mem_singleton.mpr rfl
    | cons b rest =>
      show max a (maxScore (b :: rest)) ∈ a :: b :: rest
      rcases max_cases a (maxScore (b :: rest)) with ⟨heq, _⟩ | ⟨heq, _⟩
      · rw [heq]; exact List.mem_cons_self _ _
      · rw [heq]
        exact List.mem_cons_of_mem a (ih (List.cons_ne_nil b rest))

lemma argmaxIdx_lt_length : ∀ (l : List ℚ), l ≠ [] → argmaxIdx l < l.length := by
  intro l
  induction l with
  | nil => intro h; exact absurd rfl h
  | cons a t ih =>
    intro _
    cases t with
    | nil => norm_num [argmaxIdx]
    | cons b rest =>
      show (if a < maxScore (b :: rest) then argmaxIdx (b :: rest) + 1 else 0) <
        (a :: b :: rest).length
      split_ifs
      · have := ih (List.cons_ne_nil b rest)
        simpa [Nat.succ_lt_succ_iff] using this
      · simp

lemma getD_argmaxIdx : ∀ (l : List ℚ), l ≠ [] →
    l.getD (argmaxIdx l) 0 = maxScore l := by
  intro l
  induction l with
  | nil => intro h; exact absurd rfl h
  | cons a t ih =>
    intro _
    cases t with
    | nil => rfl
    | cons b rest =>
      show (a :: b :: rest).getD
          (if a < maxScore (b :: rest) then argmaxIdx (b :: rest) + 1 else 0) 0 =
        max a (maxScore (b :: rest))
      split_ifs with h
      · rw [List.getD_cons_succ, ih (List.cons_ne_nil b rest),
          max_eq_right h.le]
      · rw [List.getD_cons_zero, max_eq_left (not_lt.mp h)]

lemma argmaxIdx_sorted_eq_zero :
    ∀ (l : List ℚ), List.Pairwise (fun p q => q ≤ p) l → argmaxIdx l = 0 := by
  intro l hp
  cases l with
  | nil => rfl
  | cons a t =>
    cases t with
    | nil => rfl
    | cons b rest =>
      have hall := (List.pairwise_cons.mp hp).1
      have hm : maxScore (b :: rest) ≤ a :=
        hall _ (maxScore_mem (b :: rest) (List.cons_ne_nil b rest))
      show (if a < maxScore (b :: rest) then argmaxIdx (b :: rest) + 1 else 0) = 0
      rw [if_neg (not_lt.mpr hm)]

/-- The picked detection `dets[argmax]` has the maximal score. -/
lemma detOf_argmax_score (dets : List Det) (hne : dets ≠ []) :
    ∀ d ∈ dets,
      d.score ≤ (detOf dets (argmaxIdx (dets.map Det.score))).score := by
  intro d hd
  have hmapne : dets.map Det.score ≠ [] := by
    intro h
    exact hne (List.map_eq_nil_iff.mp h)
  have hlt : argmaxIdx (dets.map Det.score) < dets.length := by
    have := argmaxIdx_lt_length (dets.map Det.score) hmapne
    simpa using this
  have hproj : (detOf dets (argmaxIdx (dets.map Det.score))).score
      = (dets.map Det.score).getD (argmaxIdx (dets.map Det.score)) 0 := by
    unfold detOf
    rw [List.getD_eq_getElem _ _ hlt,
      List.getD_eq_getElem _ _ (by simpa using hlt), List.getElem_map]
  rw [hproj, getD_argmaxIdx _ hmapne]
  exact le_maxScore _ _ (List.mem_map_of_mem Det.score hd)

/-- The picked detection is one of the current detections. -/
lemma detOf_argmax_mem (dets : List Det) (hne : dets ≠ []) :
    detOf dets (argmaxIdx (dets.map Det.score)) ∈ dets := by
  have hmapne : dets.map Det.score ≠ [] := by simpa using hne
  have hlt : argmaxIdx (dets.map Det.score) < dets.length := by
    have := argmaxIdx_lt_length (dets.map Det.score) hmapne
    simpa using this
  unfold detOf
  rw [List.getD_eq_getElem _ _ hlt]
  exact List.getElem_mem _

/-- Unpacking a surviving row of one Soft-NMS iteration. -/
lemma softRow_some {w : ℚ → ℚ} {θ : ℚ} {t d e : Det}
    (h : softRow w θ t d = some e) :
    ∃ o, ovrNp t d = some o ∧ θ ≤ d.score * w o ∧
      e = ⟨d.score * w o, d.x1, d.y1, d.x2, d.y2⟩ := by
  unfold softRow at h
  rcases ho : ovrNp t d with _ | o
  · rw [ho] at h
    exact absurd h (by simp)
  · rw [ho] at h
    rw [Option.some_bind] at h
    by_cases hc : θ ≤ d.score * w o
    · rw [if_pos hc] at h
      exact ⟨o, rfl, hc, (Option.some_inj.mp h).symm⟩
    · rw [if_neg hc] at h
      exact absurd h (by simp)

/-- Every row surviving a Soft-NMS iteration passed the `>= thres`
filter. -/
lemma softIter_theta (w : ℚ → ℚ) (θ : ℚ) (dets : List Det) (mp : Nat) :
    ∀ e ∈ softIter w θ dets mp, θ ≤ e.score := by
  intro e he
  unfold softIter at he
  rw [List.mem_filterMap] at he
  obtain ⟨a, _, hrow⟩ := he
  obtain ⟨o, _, hθ, rfl⟩ := softRow_some hrow
  exact hθ

/-- With a decay in `(0, 1]` and non-negatively scored current rows,
every row surviving an iteration scores at most the picked maximum. -/
lemma softIter_le_picked (w : ℚ → ℚ) (θ : ℚ)
    (hW : ∀ x, 0 < w x ∧ w x ≤ 1) (dets : List Det)
    (h0 : ∀ d ∈ dets, 0 ≤ d.score) (hne : dets ≠ []) :
    ∀ e ∈ softIter w θ dets (argmaxIdx (dets.map Det.score)),
      e.score ≤ (detOf dets (argmaxIdx (dets.map Det.score))).score := by
  intro e he
  set mp := argmaxIdx (dets.map Det.score) with hmp
  have hps : 0 ≤ (detOf dets mp).score :=
    h0 _ (detOf_argmax_mem dets hne)
  unfold softIter at he
  rw [List.mem_filterMap] at he
  obtain ⟨a, ha, hrow⟩ := he
  obtain ⟨o, _, _, rfl⟩ := softRow_some hrow
  rcases List.mem_or_eq_of_mem_set ha with ha' | rfl
  · have h1 : a.score * w o ≤ a.score :=
      mul_le_of_le_one_right (h0 a ha') (hW o).2
    exact h1.trans (detOf_argmax_score dets hne a ha')
  · have h1 : (-1 : ℚ) * w o < 0 := by
      have := (hW o).1
      nlinarith
    exact (le_of_lt h1).trans hps

/-- Pairwise descending pick order and score domination for a completed
Soft-NMS run over non-negatively scored input. -/
lemma soft_go_sorted (w : ℚ → ℚ) (θ : ℚ)
    (hW : ∀ x, 0 < w x ∧ w x ≤ 1) (hT : 0 ≤ θ) :
    ∀ (fuel : Nat) (dets out : List Det), (∀ d ∈ dets, 0 ≤ d.score) →
      soft_nms_go w θ fuel dets = some out →
      List.Pairwise (fun a b => b.score ≤ a.score) out ∧
        ∀ d ∈ out, ∃ d0 ∈ dets, d.score ≤ d0.score := by
  intro fuel
  induction fuel with
  | zero =>
    intro dets out h0 hrun
    cases dets with
    | nil =>
      rw [show soft_nms_go w θ 0 [] = some [] from rfl] at hrun
      obtain rfl : ([] : List Det) = out := Option.some_inj.mp hrun
      exact ⟨List.Pairwise.nil, by simp⟩
    | cons d ds => exact absurd hrun (by rw [soft_nms_go]; simp)
  | succ f ih =>
    intro dets out h0 hrun
    cases dets with
    | nil =>
      rw [show soft_nms_go w θ (f + 1) [] = some [] from rfl] at hrun
      obtain rfl : ([] : List Det) = out := Option.some_inj.mp hrun
      exact ⟨List.Pairwise.nil, by simp⟩
    | cons d ds =>
      rw [soft_nms_go] at hrun
      set dets := d :: ds with hdets
      set mp := argmaxIdx (dets.map Det.score) with hmp
      set picked := detOf dets mp with hpicked
      rcases hrest : soft_nms_go w θ f (softIter w θ dets mp) with _ | rest
      · rw [hrest] at hrun
        exact absurd hrun (by simp)
      · rw [hrest] at hrun
        obtain rfl : picked :: rest = out := by
          simpa using hrun
        have hne : dets ≠ [] := by simp [hdets]
        have hiter0 : ∀ e ∈ softIter w θ dets mp, 0 ≤ e.score :=
          fun e he => le_trans hT (softIter_theta w θ dets mp e he)
        have hiterle : ∀ e ∈ softIter w θ dets mp, e.score ≤ picked.score :=
          softIter_le_picked w θ hW dets h0 hne
        obtain ⟨hpair, hdom⟩ := ih (softIter w θ dets mp) rest hiter0 hrest
        have hpmem : picked ∈ dets := detOf_argmax_mem dets hne
        constructor
        · refine List.pairwise_cons.mpr ⟨fun b hb => ?_, hpair⟩
          obtain ⟨e, he, hbe⟩ := hdom b hb
          exact hbe.trans (hiterle e he)
        · intro x hx
          rcases List.mem_cons.mp hx with rfl | hx'
          · exact ⟨picked, hpmem, le_refl _⟩
          · obtain ⟨e, he, hxe⟩ := hdom x hx'
            exact ⟨picked, hpmem, hxe.trans (hiterle e he)⟩

/-- Every element of a completed run is at least `thres` when the input
rows all are. -/
lemma soft_go_all_theta (w : ℚ → ℚ) (θ : ℚ) :
    ∀ (fuel : Nat) (dets out : List Det), (∀ d ∈ dets, θ ≤ d.score) →
      soft_nms_go w θ fuel dets = some out → ∀ e ∈ out, θ ≤ e.score := by
  intro fuel
  induction fuel with
  | zero =>
    intro dets out h0 hrun
    cases dets with
    | nil =>
      rw [show soft_nms_go w θ 0 [] = some [] from rfl] at hrun
      obtain rfl : ([] : List Det) = out := Option.some_inj.mp hrun
      simp
    | cons d ds => exact absurd hrun (by rw [soft_nms_go]; simp)
  | succ f ih =>
    intro dets out h0 hrun
    cases dets with
    | nil =>
      rw [show soft_nms_go w θ (f + 1) [] = some [] from rfl] at hrun
      obtain rfl : ([] : List Det) = out := Option.some_inj.mp hrun
      simp
    | cons d ds =>
      rw [soft_nms_go] at hrun
      set dets := d :: ds with hdets
      set mp := argmaxIdx (dets.map Det.score) with hmp
      rcases hrest : soft_nms_go w θ f (softIter w θ dets mp) with _ | rest
      · rw [hrest] at hrun
        exact absurd hrun (by simp)
      · rw [hrest] at hrun
        obtain rfl : detOf dets mp :: rest = out := by simpa using hrun
        intro e he
        rcases List.mem_cons.mp he with rfl | he'
        · exact h0 _ (detOf_argmax_mem dets (by simp [hdets]))
        · exact ih (softIter w θ dets mp) rest
            (softIter_theta w θ dets mp) hrest e he'

/-- Every element after the first pick of a completed run is at least
`thres` (the first pick is the raw input maximum and carries no such
bound). -/
lemma soft_go_tail_theta (w : ℚ → ℚ) (θ : ℚ) (fuel : Nat)
    (dets out : List Det) (hrun : soft_nms_go w θ fuel dets = some out) :
    ∀ e ∈ out.tail, θ ≤ e.score := by
  cases dets with
  | nil =>
    have hout : ([] : List Det) = out := by
      cases fuel with
      | zero => exact Option.some_inj.mp hrun
      | succ f => exact Option.some_inj.mp hrun
    obtain rfl := hout
    simp
  | cons d ds =>
    cases fuel with
    | zero => exact absurd hrun (by rw [soft_nms_go]; simp)
    | succ f =>
      rw [soft_nms_go] at hrun
      set dets := d :: ds with hdets
      set mp := argmaxIdx (dets.map Det.score) with hmp
      rcases hrest : soft_nms_go w θ f (softIter w θ dets mp) with _ | rest
      · rw [hrest] at hrun
        exact absurd hrun (by simp)
      · rw [hrest] at hrun
        obtain rfl : detOf dets mp :: rest = out := by simpa using hrun
        intro e he
        exact soft_go_all_theta w θ f (softIter w θ dets mp) rest
          (softIter_theta w θ dets mp) hrest e (by simpa using he)

lemma one_add_sq_pos (x : ℚ) : 0 < 1 + x * x := by
  nlinarith [mul_self_nonneg x]

lemma cDecay_pos (x : ℚ) : 0 < cDecay x := by
  unfold cDecay
  exact div_pos one_pos (one_add_sq_pos x)

lemma cDecay_le_one (x : ℚ) : cDecay x ≤ 1 := by
  unfold cDecay
  rw [div_le_one (one_add_sq_pos x)]
  nlinarith [mul_self_nonneg x]

lemma cDecay_zero : cDecay 0 = 1 := by
  unfold cDecay
  norm_num

/-- `interW` of a box with itself is its (signed) width. -/
lemma interW_self (b : Box) : interW b b = b.x2 - b.x1 + 1 := by
  unfold interW
  rw [min_self, max_self]

/-- `interH` of a box with itself is its (signed) height. -/
lemma interH_self (b : Box) : interH b b = b.y2 - b.y1 + 1 := by
  unfold interH
  rw [min_self, max_self]

/-- For a positive-area box the self-overlap denominator of the Soft-NMS
decay never vanishes (it is the area itself, or twice the area when both
signed dimensions are negative). -/
lemma selfDenom_ne_zero (b : Box) (hA : 0 < bbox_area b) :
    nmsDenom b b ≠ 0 := by
  have hw := interW_self b
  have hh := interH_self b
  have hAq : 0 < (b.x2 - b.x1 + 1) * (b.y2 - b.y1 + 1) := hA
  unfold nmsDenom pairInter
  rw [hw, hh]
  unfold bbox_area
  rcases lt_trichotomy (b.x2 - b.x1 + 1) 0 with hp | hp | hp
  · rw [max_eq_left hp.le, zero_mul]
    intro hcon
    linarith
  · exfalso
    rw [hp] at hAq
    simp at hAq
  · have hq : 0 < b.y2 - b.y1 + 1 := by nlinarith
    rw [max_eq_right hp.le, max_eq_right hq.le]
    intro hcon
    nlinarith

/-- The row forced to score `-1` is always dropped when `thres >= 0` and
the decay is positive (its rescaled score stays negative). -/
lemma softRow_forced_removed (w : ℚ → ℚ) (θ : ℚ) (hwpos : ∀ x, 0 < w x)
    (hT : 0 ≤ θ) (t d' : Det) (hs : d'.score = -1)
    (hden : nmsDenom d'.box t.box ≠ 0) : softRow w θ t d' = none := by
  unfold softRow ovrNp
  rw [if_neg hden, Option.some_bind]
  have hneg : d'.score * w (pairInter d'.box t.box / nmsDenom d'.box t.box) < θ := by
    rw [hs]
    have := hwpos (pairInter d'.box t.box / nmsDenom d'.box t.box)
    nlinarith
  rw [if_neg (not_le.mpr hneg)]

/-- A row not intersecting the popped box keeps its score exactly
(decay at overlap 0 is `w 0 = 1`) and survives when it is `>= thres`. -/
lemma softRow_disjoint_keep (w : ℚ → ℚ) (θ : ℚ) (hw0 : w 0 = 1) (t e : Det)
    (hdisj : pairInter t.box e.box = 0) (hA : 0 < bbox_area t.box)
    (hB : 0 < bbox_area e.box) (hθe : θ ≤ e.score) :
    softRow w θ t e = some e := by
  have hpc : pairInter e.box t.box = 0 := by
    rw [pairInter_comm]
    exact hdisj
  have hden : nmsDenom e.box t.box ≠ 0 := by
    unfold nmsDenom
    rw [hpc]
    intro hcon
    linarith
  unfold softRow ovrNp
  rw [if_neg hden, Option.some_bind, hpc, zero_div, hw0, mul_one,
    if_pos hθe]

/-- The unfolding equation of one `soft_nms` while-iteration. -/
lemma soft_go_cons (w : ℚ → ℚ) (θ : ℚ) (f : Nat) (d : Det) (ds : List Det) :
    soft_nms_go w θ (f + 1) (d :: ds) =
      (soft_nms_go w θ f
          (softIter w θ (d :: ds) (argmaxIdx ((d :: ds).map Det.score)))).map
        (fun rest => detOf (d :: ds) (argmaxIdx ((d :: ds).map Det.score)) :: rest) :=
  rfl

/-! ### Global-cap counting lemmas -/

/-- Order statistics of the pooled scores: at least `K` pool entries are
`>=` the `K`-th highest, with equality when the cutoff value occurs only
once in the pool. -/
lemma kth_count (pool : List ℚ) (K : Nat) (hK : 1 ≤ K)
    (h : K < pool.length) :
    K ≤ pool.countP (fun x => decide (kthHighest pool K ≤ x)) ∧
      (pool.count (kthHighest pool K) = 1 →
        pool.countP (fun x => decide (kthHighest pool K ≤ x)) = K) := by
  have hperm : (List.insertionSort (· ≤ ·) pool).Perm pool :=
    List.perm_insertionSort _ _
  have hsorted : List.Sorted (· ≤ ·) (List.insertionSort (· ≤ ·) pool) :=
    List.sorted_insertionSort _ _
  have hlen : (List.insertionSort (· ≤ ·) pool).length = pool.length :=
    hperm.length_eq
  have ht : kthHighest pool K =
      (List.insertionSort (· ≤ ·) pool).getD (pool.length - K) 0 := by
    simp only [kthHighest]
    rw [hlen, Nat.mod_eq_of_lt (by omega)]
  rw [ht]
  set s := List.insertionSort (· ≤ ·) pool with hsdef
  set i := pool.length - K with hidef
  have hilts : i < s.length := by omega
  set t := s.getD i 0 with htdef
  have htget : t = s.get ⟨i, hilts⟩ := List.getD_eq_get s 0 hilts
  have hdrop : s.drop i = t :: s.drop (i + 1) := by
    rw [htget]
    have := List.drop_eq_getElem_cons (l := s) (n := i) hilts
    simpa [List.get_eq_getElem] using this
  have hsplit : s.take i ++ s.drop i = s := List.take_append_drop i s
  have hdropsorted : List.Sorted (· ≤ ·) (s.drop i) :=
    List.Pairwise.sublist (List.drop_sublist i s) hsorted
  have hall : ∀ x ∈ s.drop (i + 1), t ≤ x := by
    rw [hdrop] at hdropsorted
    exact (List.pairwise_cons.mp hdropsorted).1
  have hpall : ∀ a ∈ s.drop i, decide (t ≤ a) = true := by
    rw [hdrop]
    intro a ha
    rcases List.mem_cons.mp ha with rfl | ha'
    · simp
    · simpa using hall a ha'
  have hcountdrop : (s.drop i).countP (fun x => decide (t ≤ x)) =
      s.length - i := by
    rw [List.countP_eq_length.mpr hpall, List.length_drop]
  have hcountsplit : s.countP (fun x => decide (t ≤ x)) =
      (s.take i).countP (fun x => decide (t ≤ x)) +
        (s.drop i).countP (fun x => decide (t ≤ x)) := by
    conv_lhs => rw [← hsplit]
    rw [List.countP_append]
  have hpoolP : s.countP (fun x => decide (t ≤ x)) =
      pool.countP (fun x => decide (t ≤ x)) := hperm.countP_eq _
  constructor
  · omega
  · intro hc1
    have hcs : s.count t = 1 := by
      rw [hperm.count_eq]
      exact hc1
    have hcsplit : s.count t = (s.take i).count t + (s.drop i).count t := by
      conv_lhs => rw [← hsplit]
      rw [List.count_append]
    have hcdrop : (s.drop i).count t = (s.drop (i + 1)).count t + 1 := by
      rw [hdrop, List.count_cons]
      simp
    have htake0 : (s.take i).count t = 0 := by omega
    have hnotmem : t ∉ s.take i := List.count_eq_zero.mp htake0
    have htakele : ∀ a ∈ s.take i, ∀ b ∈ s.drop i, a ≤ b := by
      have := List.pairwise_append.mp (by rw [hsplit]; exact hsorted)
      exact this.2.2
    have htakeP : ∀ a ∈ s.take i, ¬ decide (t ≤ a) = true := by
      intro a ha
      simp only [decide_eq_true_eq]
      intro hta
      have hat : a ≤ t :=
        htakele a ha t (by rw [hdrop]; exact List.mem_cons_self t _)
      exact hnotmem (le_antisymm hat hta ▸ ha)
    have htake0P : (s.take i).countP (fun x => decide (t ≤ x)) = 0 :=
      List.countP_eq_zero.mpr htakeP
    omega

/-- The kept-row count of the cap's per-class filter equals the pooled
count of scores above the cutoff. -/
lemma totalCount_filter (clsBoxes : List (List LDet)) (t : ℚ) :
    totalCount (clsBoxes.map fun cb => cb.filter fun d => t ≤ d.score) =
      (pooledScores clsBoxes).countP fun x => decide (t ≤ x) := by
  unfold totalCount pooledScores
  rw [List.countP_flatten, List.map_map, List.map_map]
  refine congrArg List.sum (List.map_congr_left fun cb _ => ?_)
  show (cb.filter fun d => decide (t ≤ d.score)).length =
    (cb.map LDet.score).countP fun x => decide (t ≤ x)
  rw [List.countP_map, ← List.countP_eq_length_filter]
  rfl

/-! ### Mask merging and encoding lemmas -/

lemma reverseLastAxis_shape (a : NpArr) : (reverseLastAxis a).shape = a.shape := by
  show (if a.shape.getLastD 1 = 0 then a
    else NpArr.mk a.shape
      ((List.map List.reverse (List.toChunks (a.shape.getLastD 1) a.data)).flatten)).shape
    = a.shape
  split_ifs <;> rfl

/-- `np.mean` over a non-empty equal-shape stack succeeds and keeps the
common shape. -/
lemma npMeanStack_shape (l : List NpArr) (sh : List Nat) (hne : l ≠ [])
    (hsh : ∀ a ∈ l, a.shape = sh) :
    ∃ arr, npMeanStack l = some arr ∧ arr.shape = sh := by
  cases l with
  | nil => exact absurd rfl hne
  | cons a rest =>
    have hall : (rest.all fun b => b.shape == a.shape) = true := by
      rw [List.all_eq_true]
      intro b hb
      rw [beq_iff_eq, hsh b (List.mem_cons_of_mem a hb),
        hsh a (List.mem_cons_self a rest)]
    simp only [npMeanStack, hall, if_true]
    exact ⟨_, rfl, hsh a (List.mem_cons_self a rest)⟩

lemma pointwiseMean_nil_head (rest : List (List ℚ)) :
    pointwiseMean ([] :: rest) = [] := by
  have hfold : rest.foldl (fun acc x => acc.zipWith (· + ·) x) [] = [] := by
    induction rest with
    | nil => rfl
    | cons x xs ih =>
      rw [List.foldl_cons, List.zipWith_nil_left]
      exact ih
  simp only [pointwiseMean]
  rw [hfold]
  rfl

/-- `np.mean` over a non-empty stack of empty `(0, M, M)` arrays is the
empty `(0, M, M)` array. -/
lemma npMeanStack_const_empty (l : List NpArr) (M : Nat) (hne : l ≠ [])
    (hc : ∀ a ∈ l, a = ⟨[0, M, M], []⟩) :
    npMeanStack l = some ⟨[0, M, M], []⟩ := by
  cases l with
  | nil => exact absurd rfl hne
  | cons a rest =>
    have hmem := List.mem_cons_self a rest
    obtain rfl := hc a hmem
    have hall : (rest.all fun b =>
        b.shape == (NpArr.mk [0, M, M] []).shape) = true := by
      rw [List.all_eq_true]
      intro b hb
      rw [beq_iff_eq, hc b (List.mem_cons_of_mem _ hb)]
    simp only [npMeanStack, hall, if_true]
    rw [pointwiseMean_nil_head]

/-- A 4-dimensional tensor of shape `sh` passes the substitution check in
`mstest_mask_post_process` with its shape intact (flipped or not). -/
lemma mstest_item_shape (M : Nat) (p : Bool × NpArr) (sh : List Nat)
    (h4 : sh.length = 4) (hp : p.2.shape = sh) :
    (if p.2.shape.length ≠ 4 then NpArr.mk [0, M, M] []
     else if p.1 then reverseLastAxis p.2 else p.2).shape = sh := by
  rw [if_neg (by rw [hp, h4]; norm_num)]
  split_ifs
  · rw [reverseLastAxis_shape, hp]
  · exact hp

/-! ### Claim theorems -/



/-- C3 counterexample: the claim says a zero denominator yields IoU = 0 in
the pairwise overlap inside greedy NMS.  On two coincident zero-area
boxes with `thresh = 0` the denominator is 0, and the source's
`0.0/0.0` is `NaN`, whose `>=` comparison is `False`: `nms` keeps both
boxes, whereas the spec-worded IoU-0 semantics (`nms_specGuard`) would
compare `0 >= 0` and suppress the duplicate.  So the code does not
define IoU = 0 at a zero denominator. -/
theorem nms_nan_zero_denominator_cex :
    nmsDenom degB degB = 0 ∧ nms exC3 0 = exC3 ∧
      nms_specGuard exC3 0 = [⟨1, 0, 0, -1, 0⟩] := by
  refine ⟨?_, ?_, ?_⟩
  · norm_num [nmsDenom, bbox_area, pairInter, interW, interH, degB,
      sup_eq_max, max_def, inf_eq_min, min_def]
  · norm_num [nms, nmsRun, exC3, argsortDesc, List.insertionSort,
      List.orderedInsert, nmsLoop, nmsInner, nmsOvrGE, nmsDenom, bbox_area,
      pairInter, interW, interH, detOf, Det.box, sup_eq_max, max_def,
      inf_eq_min, min_def, List.enum, List.enumFrom, List.range,
      List.range.loop]
  · norm_num [nms_specGuard, nmsRun, exC3, argsortDesc, List.insertionSort,
      List.orderedInsert, nmsLoop, nmsInner, iouSpecGuard, nmsDenom,
      bbox_area, pairInter, interW, interH, detOf, Det.box, sup_eq_max,
      max_def, inf_eq_min, min_def, List.enum, List.enumFrom, List.range,
      List.range.loop]

/-- C3 (amended): `bbox_overlaps` divides only behind the `iw > 0`,
`ih > 0` guards, where the denominator `ua` is strictly positive (so IoU
is well defined there, and unguarded entries are 0 without any division);
in `nms` the unguarded denominator can be 0 (only with a zero numerator),
in which case numpy produces `NaN`, not 0, and the suppression test
`ovr >= thresh` is false — no exception is raised in either routine. -/
theorem iou_zero_denominator_guard (a b c d : Box) (thresh : ℚ) :
    (0 < interW a b → 0 < interH a b → 0 < unionArea a b) ∧
      (nmsDenom c d = 0 → nmsOvrGE c d thresh = false) := by
  constructor
  · exact fun hw hh => unionArea_pos a b hw hh
  · intro h
    unfold nmsOvrGE
    rw [if_pos h]

/-- Witness for `iou_zero_denominator_guard` at concrete boxes. -/
theorem iou_zero_denominator_guard_witness :
    (0 < interW ⟨0, 0, 10, 10⟩ ⟨1, 1, 11, 11⟩ ∧
        0 < interH ⟨0, 0, 10, 10⟩ ⟨1, 1, 11, 11⟩ ∧
        0 < unionArea ⟨0, 0, 10, 10⟩ ⟨1, 1, 11, 11⟩) ∧
      (nmsDenom degB degB = 0 ∧ nmsOvrGE degB degB 0 = false) := by
  have hw : 0 < interW ⟨0, 0, 10, 10⟩ ⟨1, 1, 11, 11⟩ := by
    norm_num [interW, inf_eq_min, min_def, sup_eq_max, max_def]
  have hh : 0 < interH ⟨0, 0, 10, 10⟩ ⟨1, 1, 11, 11⟩ := by
    norm_num [interH, inf_eq_min, min_def, sup_eq_max, max_def]
  have hd : nmsDenom degB degB = 0 := by
    norm_num [nmsDenom, bbox_area, pairInter, interW, interH, degB,
      sup_eq_max, max_def, inf_eq_min, min_def]
  refine ⟨⟨hw, hh, ?_⟩, ⟨hd, ?_⟩⟩
  · exact (iou_zero_denominator_guard ⟨0, 0, 10, 10⟩ ⟨1, 1, 11, 11⟩ degB degB 0).1
      hw hh
  · exact (iou_zero_denominator_guard ⟨0, 0, 10, 10⟩ ⟨1, 1, 11, 11⟩ degB degB 0).2
      hd


/-- C2 counterexample: the claim says `nms` returns survivors ordered by
descending score.  On two distant boxes supplied in ascending score
order nothing is suppressed, and `dets[keep, :]` with
`keep = np.where(suppressed == 0)[0]` returns the rows in original index
order — scores `[1, 2]`, not descending. -/
theorem nms_descending_order_cex :
    nms exC2 (1 / 2) = exC2 ∧
      ¬ List.Pairwise (fun a b : Det => b.score ≤ a.score) (nms exC2 (1 / 2)) := by
  have h : nms exC2 (1 / 2) = exC2 := by
    norm_num [nms, nmsRun, exC2, argsortDesc, List.insertionSort,
      List.orderedInsert, nmsLoop, nmsInner, nmsOvrGE, nmsDenom, bbox_area,
      pairInter, interW, interH, detOf, Det.box, max_def, min_def,
      List.enum, List.enumFrom, List.range, List.range.loop]
  refine ⟨h, ?_⟩
  rw [h]
  norm_num [exC2, List.pairwise_cons]

/-- C2 (amended): `nms` returns the survivors as a sublist of its input —
i.e. in the original input order, not re-sorted — and therefore the
output is in descending score order precisely when the input already is
(as it is when `get_nms_result` feeds sorted per-class rows). -/
theorem nms_input_order (dets : List Det) (thresh : ℚ) :
    (nms dets thresh).Sublist dets ∧
      (List.Pairwise (fun a b => b.score ≤ a.score) dets →
        List.Pairwise (fun a b => b.score ≤ a.score) (nms dets thresh)) := by
  have hsub : (nms dets thresh).Sublist dets := by
    unfold nms nmsRun
    have h1 := List.filter_sublist (l := dets.enum)
      (p := fun p => !((nmsLoop dets (fun a b => nmsOvrGE a b thresh)
        (argsortDesc (dets.map Det.score))
        (List.replicate dets.length false)).getD p.1 false))
    have h2 := h1.map Prod.snd
    rwa [List.enum_map_snd] at h2
  exact ⟨hsub, fun hp => hp.sublist hsub⟩

/-- Witness for `nms_input_order` on a descending-score input. -/
theorem nms_input_order_witness :
    List.Pairwise (fun a b : Det => b.score ≤ a.score)
        [⟨2, 0, 0, 10, 10⟩, ⟨1, 100, 100, 110, 110⟩] ∧
      (nms [⟨2, 0, 0, 10, 10⟩, ⟨1, 100, 100, 110, 110⟩] (1 / 2)).Sublist
        [⟨2, 0, 0, 10, 10⟩, ⟨1, 100, 100, 110, 110⟩] ∧
      List.Pairwise (fun a b : Det => b.score ≤ a.score)
        (nms [⟨2, 0, 0, 10, 10⟩, ⟨1, 100, 100, 110, 110⟩] (1 / 2)) := by
  have hp : List.Pairwise (fun a b : Det => b.score ≤ a.score)
      [⟨2, 0, 0, 10, 10⟩, ⟨1, 100, 100, 110, 110⟩] := by
    norm_num [List.pairwise_cons]
  exact ⟨hp, (nms_input_order [⟨2, 0, 0, 10, 10⟩, ⟨1, 100, 100, 110, 110⟩] (1 / 2)).1,
    (nms_input_order [⟨2, 0, 0, 10, 10⟩, ⟨1, 100, 100, 110, 110⟩] (1 / 2)).2 hp⟩


/-- C6 counterexample: with `vote_thresh = 2 > 1` the claim says
`box_voting` is the identity transform.  In the code the voting cluster
of the (only) survivor is empty — its own IoU is exactly 1, below the
threshold — so `np.average` over empty weights raises
`ZeroDivisionError` (`none`), not the identity result. -/
theorem box_voting_identity_cex :
    box_voting exC6 exC6 2 = none ∧ box_voting exC6 exC6 2 ≠ some exC6 := by
  have h : box_voting exC6 exC6 2 = none := by
    norm_num [box_voting, exC6, List.mapM, List.mapM.loop, npAverage,
      overlapEntry, unionArea, bbox_area, interW, interH, Det.box,
      sup_eq_max, max_def, inf_eq_min, min_def]
  exact ⟨h, by simp [h]⟩

/-- C6 (amended): for any voting threshold strictly greater than 1, every
cluster is empty (all `bbox_overlaps` entries are `≤ 1`), so on any
non-empty survivor list `box_voting` raises `ZeroDivisionError` rather
than acting as the identity; `box_voting` is the identity exactly in the
claim's intended situation — when each survivor's cluster is its own
single copy in the candidate pool and its score is non-zero (e.g. at
`vote_thresh = 1` with pairwise-distinct positive-area boxes). -/
theorem box_voting_thresh_gt_one (nms_dets dets : List Det) (vt : ℚ) :
    (1 < vt → nms_dets ≠ [] → box_voting nms_dets dets vt = none) ∧
      ((∀ d ∈ nms_dets,
          dets.filter (fun c => vt ≤ overlapEntry d.box c.box) = [d] ∧
            d.score ≠ 0) →
        box_voting nms_dets dets vt = some nms_dets) := by
  constructor
  · intro hvt hne
    obtain ⟨d, rest, rfl⟩ : ∃ d rest, nms_dets = d :: rest := by
      cases nms_dets with
      | nil => exact absurd rfl hne
      | cons d rest => exact ⟨d, rest, rfl⟩
    have hempty :
        dets.filter (fun c => decide (vt ≤ overlapEntry d.box c.box)) = [] := by
      refine List.filter_eq_nil_iff.mpr fun c _ => ?_
      have h1 := overlapEntry_le_one d.box c.box
      simp only [decide_eq_true_eq, not_le]
      linarith
    unfold box_voting
    rw [List.mapM_cons]
    simp [hempty, npAverage]
  · intro h
    unfold box_voting
    refine mapM_fix _ nms_dets fun d hd => ?_
    obtain ⟨hcl, hs⟩ := h d hd
    obtain ⟨s, x1, y1, x2, y2⟩ := d
    simp only [Det.box] at hcl
    simp [Det.box, npAverage, hcl, hs, mul_div_cancel_left₀]

/-- Witness for `box_voting_thresh_gt_one`: the raising branch at
`vote_thresh = 2` and the identity branch at `vote_thresh = 1`. -/
theorem box_voting_thresh_gt_one_witness :
    box_voting exC6 exC6 2 = none ∧ box_voting exC6 exC6 1 = some exC6 := by
  constructor
  · refine (box_voting_thresh_gt_one exC6 exC6 2).1 (by norm_num) (by simp [exC6])
  · refine (box_voting_thresh_gt_one exC6 exC6 1).2 ?_
    intro d hd
    simp only [exC6, List.mem_singleton] at hd
    subst hd
    constructor
    · norm_num [exC6, List.filter, overlapEntry, unionArea, bbox_area, interW,
        interH, Det.box, sup_eq_max, max_def, inf_eq_min, min_def]
    · norm_num

/-- C7 (confirmed): `box_flip` is an involution — mirroring the strided
x-columns about the same image width twice restores every coordinate
exactly (the arithmetic `w - (w - x - 1) - 1 = x` is exact; the embedding
carries the float values as exact rationals). -/
theorem box_flip_involution (boxes : List (List Box))
    (im_shape : List (List ℚ)) :
    box_flip (box_flip boxes im_shape) im_shape = boxes := by
  unfold box_flip
  rw [List.map_map]
  conv_rhs => rw [← List.map_id boxes]
  refine List.map_congr_left fun row _ => ?_
  simp only [Function.comp, List.map_map, List.map_id]
  conv_rhs => rw [← List.map_id row]
  refine List.map_congr_left fun b _ => ?_
  cases b with
  | mk x1 y1 x2 y2 =>
    simp only [Function.comp, List.map_id, id]
    congr 1 <;> ring

/-- C4 counterexample: the claim says every `soft_nms` output score is
`>= theta`.  A single box scoring below `theta` is still popped and
appended on the first iteration (no pre-filter exists), so the output is
that box with its original sub-threshold score.  (`cDecay` stands in for
the Gaussian decay; the run is independent of the decay's exact shape.) -/
theorem soft_nms_theta_cex :
    soft_nms cDecay (1 / 2) 1 [⟨1 / 5, 0, 0, 10, 10⟩] =
        some [⟨1 / 5, 0, 0, 10, 10⟩] ∧
      ((1 : ℚ) / 5 < 1 / 2) := by
  constructor
  · norm_num [soft_nms, soft_nms_go, softIter, softRow, argmaxIdx, maxScore,
      detOf, ovrNp, cDecay, nmsDenom, bbox_area, pairInter, interW, interH,
      Det.box, max_def, min_def]
  · norm_num

/-- C4 (amended): for a decay with values in `(0, 1]` (true of
`exp(-(ovr*ovr)/sigma)` for every `sigma > 0`), `theta >= 0` and
non-negative input scores, the scores of a completed `soft_nms` run are
non-increasing in pick order, and every output score from the second
pick onward is `>= theta`; the first pick is the raw input maximum and
may be below `theta` (and for negative scores or thresholds even the
monotonicity fails, as negative scores grow toward 0 under decay). -/
theorem soft_nms_scores (w : ℚ → ℚ) (θ : ℚ) (fuel : Nat)
    (dets out : List Det) (hW : ∀ x, 0 < w x ∧ w x ≤ 1) (hT : 0 ≤ θ)
    (h0 : ∀ d ∈ dets, 0 ≤ d.score)
    (hrun : soft_nms w θ fuel dets = some out) :
    List.Pairwise (fun a b => b.score ≤ a.score) out ∧
      ∀ e ∈ out.tail, θ ≤ e.score := by
  refine ⟨(soft_go_sorted w θ hW hT fuel dets out h0 hrun).1, ?_⟩
  exact soft_go_tail_theta w θ fuel dets out hrun

/-- Witness for `soft_nms_scores` on a completed two-box run. -/
theorem soft_nms_scores_witness :
    List.Pairwise (fun a b : Det => b.score ≤ a.score) exC5out ∧
      ∀ e ∈ exC5out.tail, (1 : ℚ) / 10 ≤ e.score := by
  have hrun : soft_nms cDecay (1 / 10) 2 exC5 = some exC5out := by
    norm_num [soft_nms, soft_nms_go, softIter, softRow, argmaxIdx, maxScore,
      detOf, ovrNp, cDecay, nmsDenom, bbox_area, pairInter, interW, interH,
      Det.box, max_def, min_def, exC5, exC5out, List.filterMap_cons,
      List.filterMap_nil]
  refine soft_nms_scores cDecay (1 / 10) 2 exC5 exC5out
    (fun x => ⟨cDecay_pos x, cDecay_le_one x⟩) (by norm_num) ?_ hrun
  intro d hd
  rcases List.mem_cons.mp hd with rfl | hd'
  · norm_num
  · rcases List.mem_singleton.mp hd' with rfl
    norm_num

/-- C5 counterexample: `soft_nms` is not idempotent.  On two overlapping
survivors the re-run decays the second survivor's score again
(`weight < 1` at their positive IoU), so running `soft_nms` on its own
output changes that output.  (`cDecay` stands in for the Gaussian decay;
any decay strictly below 1 at the boxes' IoU behaves the same.) -/
theorem soft_nms_idem_cex :
    soft_nms cDecay (1 / 10) 2 exC5 = some exC5out ∧
      soft_nms cDecay (1 / 10) 2 exC5out ≠ some exC5out := by
  constructor
  · norm_num [soft_nms, soft_nms_go, softIter, softRow, argmaxIdx, maxScore,
      detOf, ovrNp, cDecay, nmsDenom, bbox_area, pairInter, interW, interH,
      Det.box, max_def, min_def, exC5, exC5out, List.filterMap_cons,
      List.filterMap_nil]
  · have h2 : soft_nms cDecay (1 / 10) 2 exC5out =
        some [⟨9 / 10, 0, 0, 10, 10⟩, ⟨101646724 / 284333405, 1, 1, 11, 11⟩] := by
      norm_num [soft_nms, soft_nms_go, softIter, softRow, argmaxIdx, maxScore,
        detOf, ovrNp, cDecay, nmsDenom, bbox_area, pairInter, interW, interH,
        Det.box, max_def, min_def, exC5, exC5out, List.filterMap_cons,
      List.filterMap_nil]
    rw [h2]
    simp only [exC5out, ne_eq, Option.some_inj, List.cons.injEq, Det.mk.injEq]
    norm_num

/-- C5 (amended): `soft_nms` is idempotent only on detection lists whose
boxes are pairwise non-intersecting (zero clipped intersection).  For any
such list — with non-increasing scores all `>= theta >= 0` and positive
areas, exactly the shape of a well-behaved Soft-NMS output — a re-run
with any decay satisfying `w 0 = 1`, `w > 0` returns the list unchanged;
overlapping survivors are decayed again on a re-run (see the
counterexample). -/
theorem soft_nms_disjoint_idem (w : ℚ → ℚ) (θ : ℚ)
    (hw0 : w 0 = 1) (hwpos : ∀ x, 0 < w x) (hT : 0 ≤ θ) :
    ∀ (dets : List Det) (fuel : Nat),
      (∀ d ∈ dets, θ ≤ d.score) →
      List.Pairwise (fun a b => b.score ≤ a.score) dets →
      List.Pairwise (fun a b => pairInter a.box b.box = 0) dets →
      (∀ d ∈ dets, 0 < bbox_area d.box) →
      dets.length ≤ fuel →
      soft_nms w θ fuel dets = some dets := by
  intro dets
  induction dets with
  | nil =>
    intro fuel _ _ _ _ _
    cases fuel with
    | zero => rfl
    | succ f => rfl
  | cons d ds ih =>
    intro fuel hθ hsort hdisj harea hfuel
    cases fuel with
    | zero =>
      exfalso
      simp at hfuel
    | succ f =>
      have hmp : argmaxIdx ((d :: ds).map Det.score) = 0 := by
        apply argmaxIdx_sorted_eq_zero
        exact (List.pairwise_map).mpr hsort
      have hiter : softIter w θ (d :: ds) 0 = ds := by
        show ((⟨-1, d.x1, d.y1, d.x2, d.y2⟩ : Det) :: ds).filterMap
          (softRow w θ d) = ds
        rw [List.filterMap_cons]
        have hrm : softRow w θ d ⟨-1, d.x1, d.y1, d.x2, d.y2⟩ = none := by
          apply softRow_forced_removed w θ hwpos hT
          · rfl
          · show nmsDenom (Det.box ⟨-1, d.x1, d.y1, d.x2, d.y2⟩) d.box ≠ 0
            rw [show Det.box ⟨-1, d.x1, d.y1, d.x2, d.y2⟩ = d.box from rfl]
            exact selfDenom_ne_zero d.box (harea d (List.mem_cons_self d ds))
        rw [hrm]
        refine filterMap_fix _ ds fun e he => ?_
        refine softRow_disjoint_keep w θ hw0 d e ?_ ?_ ?_ ?_
        · exact (List.pairwise_cons.mp hdisj).1 e he
        · exact harea d (List.mem_cons_self d ds)
        · exact harea e (List.mem_cons_of_mem d he)
        · exact hθ e (List.mem_cons_of_mem d he)
      have hih : soft_nms_go w θ f ds = some ds := by
        have := ih f (fun e he => hθ e (List.mem_cons_of_mem d he))
          (List.pairwise_cons.mp hsort).2 (List.pairwise_cons.mp hdisj).2
          (fun e he => harea e (List.mem_cons_of_mem d he))
          (by simpa using hfuel)
        exact this
      unfold soft_nms
      rw [soft_go_cons, hmp, hiter, hih]
      rfl

/-- Witness for `soft_nms_disjoint_idem` on two disjoint boxes. -/
theorem soft_nms_disjoint_idem_witness :
    soft_nms cDecay 0 2 exW5 = some exW5 := by
  apply soft_nms_disjoint_idem cDecay 0 cDecay_zero cDecay_pos le_rfl
  · intro e he
    rcases List.mem_cons.mp he with rfl | he'
    · norm_num
    · rcases List.mem_singleton.mp he' with rfl
      norm_num
  · refine List.pairwise_cons.mpr ⟨fun e he => ?_, by simp⟩
    rcases List.mem_singleton.mp he with rfl
    norm_num
  · refine List.pairwise_cons.mpr ⟨fun e he => ?_, by simp⟩
    rcases List.mem_singleton.mp he with rfl
    norm_num [pairInter, interW, interH, Det.box, exW5, max_def, min_def]
  · intro e he
    rcases List.mem_cons.mp he with rfl | he'
    · norm_num [bbox_area, Det.box]
    · rcases List.mem_singleton.mp he' with rfl
      norm_num [bbox_area, Det.box]
  · norm_num [exW5]


/-- C1 (confirmed): when the pooled survivor count exceeds
`detections_per_im = K >= 1`, the global cap keeps exactly the detections
whose score is `>=` the `K`-th highest pooled score (the per-class data
is otherwise untouched), so the output count is `>= K`; and it equals `K`
whenever the cutoff score occurs only once in the pool (no tie at the
cutoff). -/
theorem limit_dets_cap (clsBoxes : List (List LDet)) (K : Nat)
    (hK : 1 ≤ K) (hover : K < (pooledScores clsBoxes).length) :
    limit_dets clsBoxes K =
        clsBoxes.map (fun cb => cb.filter fun d =>
          kthHighest (pooledScores clsBoxes) K ≤ d.score) ∧
      K ≤ totalCount (limit_dets clsBoxes K) ∧
      ((pooledScores clsBoxes).count (kthHighest (pooledScores clsBoxes) K) = 1 →
        totalCount (limit_dets clsBoxes K) = K) := by
  have heq : limit_dets clsBoxes K =
      clsBoxes.map (fun cb => cb.filter fun d =>
        kthHighest (pooledScores clsBoxes) K ≤ d.score) := by
    unfold limit_dets
    rw [if_pos hover]
  obtain ⟨hlow, hhigh⟩ := kth_count (pooledScores clsBoxes) K hK hover
  rw [heq, totalCount_filter]
  exact ⟨rfl, hlow, hhigh⟩

/-- Witness for `limit_dets_cap` on three classes pooling `[3, 2, 1]`
with `K = 2`: the cutoff is 2, kept rows are the scores 3 and 2. -/
theorem limit_dets_cap_witness :
    (1 ≤ 2 ∧ 2 < (pooledScores exC1).length) ∧
      (pooledScores exC1).count (kthHighest (pooledScores exC1) 2) = 1 ∧
      totalCount (limit_dets exC1 2) = 2 := by
  have h1 : (1 : Nat) ≤ 2 := by norm_num
  have h2 : 2 < (pooledScores exC1).length := by
    norm_num [pooledScores, exC1]
  have hkth : kthHighest (pooledScores exC1) 2 = 2 := by
    norm_num [kthHighest, pooledScores, exC1, List.insertionSort,
      List.orderedInsert]
  have hc : (pooledScores exC1).count (kthHighest (pooledScores exC1) 2) = 1 := by
    rw [hkth]
    norm_num [pooledScores, exC1, List.count_cons, List.count_nil]
  exact ⟨⟨h1, h2⟩, hc, (limit_dets_cap exC1 2 h1 h2).2.2 hc⟩


/-- C8 counterexample: the claim says an invalid (non-4-d) transform
tensor is replaced by one all-zero map per box so that the element-wise
average stays well-defined.  The code substitutes `np.zeros((0, M, M))` —
an empty stack of maps, not one per box — and mixing it with a valid
`(1, 1, 2, 2)` tensor makes `np.mean`'s stacking fail (`none`), so no
averaged result with one mask per detection exists. -/
theorem mstest_mask_zero_fill_cex : mstest_mask_post_process 2 exC8 = none := by
  norm_num [mstest_mask_post_process, exC8, npMeanStack, List.all_cons]

/-- C8 (amended): the substitute for a non-4-d mask tensor is the empty
`(0, M, M)` stack, so the element-wise average is defined only when no
substitution was needed (all tensors 4-d of one shape — then the result
keeps that shape, i.e. one averaged mask per detection) or when every
tensor was substituted (then the result is the empty `(0, M, M)` stack
with no masks at all); a mix of a valid tensor and a substitute fails. -/
theorem mstest_mask_shapes (M : Nat) (inputs : List (Bool × NpArr))
    (sh : List Nat) :
    (inputs ≠ [] → sh.length = 4 → (∀ p ∈ inputs, p.2.shape = sh) →
        ∃ arr, mstest_mask_post_process M inputs = some arr ∧ arr.shape = sh) ∧
      (inputs ≠ [] → (∀ p ∈ inputs, p.2.shape.length ≠ 4) →
        mstest_mask_post_process M inputs = some ⟨[0, M, M], []⟩) := by
  constructor
  · intro hne h4 hall
    unfold mstest_mask_post_process
    apply npMeanStack_shape
    · intro hcon
      exact hne (List.map_eq_nil_iff.mp hcon)
    · intro a ha
      rw [List.mem_map] at ha
      obtain ⟨p, hp, rfl⟩ := ha
      exact mstest_item_shape M p sh h4 (hall p hp)
  · intro hne hall
    unfold mstest_mask_post_process
    apply npMeanStack_const_empty
    · intro hcon
      exact hne (List.map_eq_nil_iff.mp hcon)
    · intro a ha
      rw [List.mem_map] at ha
      obtain ⟨p, hp, rfl⟩ := ha
      rw [if_pos (hall p hp)]

/-- Witness for `mstest_mask_shapes`: two valid equal-shape tensors
average to that shape; a single invalid tensor gives the empty stack. -/
theorem mstest_mask_shapes_witness :
    (∃ arr, mstest_mask_post_process 2 exW8 = some arr ∧
        arr.shape = [1, 1, 2, 2]) ∧
      mstest_mask_post_process 2 [(false, ⟨[1, 2, 2], [9]⟩)] =
        some ⟨[0, 2, 2], []⟩ := by
  constructor
  · refine (mstest_mask_shapes 2 exW8 [1, 1, 2, 2]).1 (by simp [exW8])
      (by norm_num) ?_
    intro p hp
    rcases List.mem_cons.mp hp with rfl | hp'
    · rfl
    · rcases List.mem_singleton.mp hp' with rfl
      rfl
  · refine (mstest_mask_shapes 2 [(false, ⟨[1, 2, 2], [9]⟩)] [1, 1, 2, 2]).2
      (by simp) ?_
    intro p hp
    rcases List.mem_singleton.mp hp with rfl
    norm_num

/-- C9 (confirmed): `mask_encode` returns the empty output collection,
without raising, whenever the detection batch has the malformed `(1, 1)`
no-detections marker shape or has zero rows — the two early guards fire
before any further processing. -/
theorem mask_encode_empty (resize : List (List ℚ) → Nat → Nat → List (List ℚ))
    (results : MaskResults) (resolution : Nat) (tb : ℚ)
    (b : List (List ℚ)) (hb : results.bbox0 = some b)
    (h : shape2 b = [1, 1] ∨ b.length = 0) :
    mask_encode resize results resolution tb = Except.ok [] := by
  unfold mask_encode pyShape2
  rw [hb]
  rcases h with h1 | h2
  · simp [h1]
  · by_cases hc : shape2 b = [1, 1]
    · simp [hc]
    · simp [hc, h2]

/-- Witness for `mask_encode_empty` on the `(1, 1)` marker batch. -/
theorem mask_encode_empty_witness :
    mask_encode (fun m _ _ => m) exC9 14 (1 / 2) = Except.ok [] :=
  mask_encode_empty (fun m _ _ => m) exC9 14 (1 / 2) [[5]] rfl (Or.inl rfl)

/-- C10 (confirmed): the `bboxes is None` disjunct of the guard is
unreachable — Python evaluates `bboxes.shape` first, and a `None` batch
raises `AttributeError` there, so `mask_encode` on a `None` batch always
errors and never returns the empty collection the guard suggests. -/
theorem mask_encode_none_raises
    (resize : List (List ℚ) → Nat → Nat → List (List ℚ))
    (results : MaskResults) (resolution : Nat) (tb : ℚ)
    (hb : results.bbox0 = none) :
    mask_encode resize results resolution tb = Except.error "AttributeError" ∧
      mask_encode resize results resolution tb ≠ Except.ok [] := by
  have h : mask_encode resize results resolution tb =
      Except.error "AttributeError" := by
    unfold mask_encode pyShape2
    rw [hb]
  exact ⟨h, by rw [h]; simp⟩

/-- Witness for `mask_encode_none_raises` on a `None` batch. -/
theorem mask_encode_none_raises_witness :
    mask_encode (fun m _ _ => m) exC10 14 (1 / 2) =
        Except.error "AttributeError" ∧
      mask_encode (fun m _ _ => m) exC10 14 (1 / 2) ≠ Except.ok [] :=
  mask_encode_none_raises (fun m _ _ => m) exC10 14 (1 / 2) rfl


end PostProcess
